import Mathlib

/-!
Shallow embedding of the deduplication core of the books-tools repository
(src/home/lib/UniqueFile.{h,cpp} and src/home/lib/book.cpp), together with
theorems about the embedded operations.

Modelling conventions:
* QString is modelled as Lean String (comparisons use the lexicographic
  order on the underlying character lists, matching QString operator<
  for the ASCII strings exercised here).
* uint64_t perceptual hashes are modelled as Nat; std::popcount over a
  64-bit value is popcount64 below.
* std::set<ImageItem> (ordered by crypto hash) is modelled as a List
  ImageItem; concrete inputs are written sorted by hash, and theorems that
  need sortedness carry it as an explicit hypothesis.
* std::unordered_multimap is modelled as a List of key/value pairs kept in
  insertion order; equal_range is modelled by filtering on the key, and
  emplace by appending.  All scenarios proved below involve at most one
  bucket per key, so the unspecified iteration order of the C++ container
  does not matter for them.
* std::unordered_multiset<uint64_t> (the rhs residual pool of
  ImageComparerHamming::Compare) is modelled as a List Nat in insertion
  order; find_if takes the first element in that order.  The concrete
  scenarios proved below have at most one in-threshold candidate, so the
  unspecified C++ iteration order cannot change their outcome.
-/

/-- Number of set bits among the low 64 bits: models std::popcount on a
uint64_t value (all perceptual hashes are 64-bit). -/
def popcount64 (n : Nat) : Nat :=
  (List.range 64).foldl (fun a i => a + n / 2 ^ i % 2) 0

/-- Modelled from the spec: Util::Intersect (declared in fnd/algorithm.h,
which is not under src/).  The spec states that two titles are considered
overlapping if their token sets intersect. -/
def Util.Intersect (a b : List String) : Bool :=
  a.any fun x => b.contains x

/-- The transliteration filler token built by createSi in UniqueFile.cpp:
the two Cyrillic characters U+0441 U+0438. -/
def siToken : String := "си"

/-- Lexicographic comparison of character code points: models
QString::operator< (QString compares UTF-16 code units; for the
characters handled here that order coincides with code point order).
Defined as an executable Bool so that every comparison in the embedding
evaluates inside the kernel. -/
def qcharsLt : List Char → List Char → Bool
  | [], [] => false
  | [], _ :: _ => true
  | _ :: _, [] => false
  | a :: as, b :: bs =>
    if a.toNat < b.toNat then true
    else if b.toNat < a.toNat then false
    else qcharsLt as bs

/-- QString::operator< on the two underlying character sequences. -/
def QStringLt (a b : String) : Bool :=
  qcharsLt a.data b.data

/-- ImageItem (src/home/lib/ImageItem.h), extended with the pHash field
used throughout UniqueFile.cpp; body models the transient byte payload. -/
structure ImageItem where
  fileName : String := ""
  body     : String := ""
  hash     : String := ""
  pHash    : Nat := 0
deriving DecidableEq

/-- UniqueFile::Uid (src/home/lib/UniqueFile.h). -/
structure UniqueFileUid where
  folder : String := ""
  file   : String := ""
deriving DecidableEq

/-- UniqueFile (src/home/lib/UniqueFile.h).  The images field is the
std::set<ImageItem> ordered by crypto hash, modelled as a list. -/
structure UniqueFile where
  uid          : UniqueFileUid := {}
  hash         : String := ""
  title        : List String := []
  hashText     : String := ""
  hashSections : List String := []
  cover        : ImageItem := {}
  images       : List ImageItem := []
  order        : Int := 0
deriving DecidableEq

/-- UniqueFile::ClearImages (UniqueFile.cpp): clears the cover body and
replaces every image by one retaining only the crypto hash. -/
def UniqueFile.ClearImages (f : UniqueFile) : UniqueFile :=
  { f with
    cover := { f.cover with body := "" }
    images := f.images.map fun i => { hash := i.hash } }

/-- UniqueFileConflictResolver::Resolve (UniqueFile.cpp): the candidate
replaces the duplicate exactly when its order is strictly greater. -/
def UniqueFileConflictResolver.Resolve (file duplicate : UniqueFile) : Bool :=
  file.order > duplicate.order

/-- ImagesCompareResult (UniqueFile.h). -/
inductive ImagesCompareResult where
  | Equal
  | Inner
  | Outer
  | Varied
deriving DecidableEq

/-- The cover comparison block at the top of ImageComparerHamming::Compare.
Returns none for the early `return Varied`, otherwise the running result
after the cover block. -/
def coverPhase (t : Nat) (lc rc : ImageItem) : Option ImagesCompareResult :=
  if lc.hash ≠ rc.hash then
    if lc.hash = "" then some .Inner
    else if rc.hash = "" then some .Outer
    else if lc.pHash = 0 ∨ rc.pHash = 0 ∨ popcount64 (lc.pHash ^^^ rc.pHash) > t then none
    else some .Equal
  else some .Equal

/-- The steps of the merge-walk loop of ImageComparerHamming::Compare in
which the rhs iterator advances alone: while the current rhs image hash is
below the current lhs image hash, its perceptual hash is collected into
the rhs residue.  Split out so that the walk recurses structurally on the
lhs list. -/
def stripBelow (l : ImageItem) : List ImageItem → List Nat × List ImageItem
  | [] => ([], [])
  | r :: rs =>
    if QStringLt r.hash l.hash then
      let s := stripBelow l rs
      (r.pHash :: s.1, s.2)
    else ([], r :: rs)

/-- The sorted merge walk over the two image sets in
ImageComparerHamming::Compare.  Returns the collected lhs and rhs residual
perceptual hashes together with the un-walked tails of both sides (the
loop stops as soon as either iterator reaches its end).  The loop is
phrased around the lhs cursor: for each lhs image, first every smaller
rhs image is collected (stripBelow), then the loop either ends (rhs
exhausted), collects the lhs image (lhs hash smaller), or cancels the
pair (equal hashes) — step for step the same comparisons and collections
as the source loop. -/
def mergeWalk : List ImageItem → List ImageItem →
    (List Nat × List Nat) × (List ImageItem × List ImageItem)
  | [], rs => (([], []), ([], rs))
  | l :: ls, rs =>
    let s := stripBelow l rs
    match s.2 with
    | [] => (([], s.1), (l :: ls, []))
    | r :: rs1 =>
      if QStringLt l.hash r.hash then
        let w := mergeWalk ls (r :: rs1)
        ((l.pHash :: w.1.1, s.1 ++ w.1.2), w.2)
      else
        let w := mergeWalk ls rs1
        ((w.1.1, s.1 ++ w.1.2), w.2)

/-- The per-pair acceptance predicate of the fuzzy matching in
ImageComparerHamming::Compare: the Hamming distance of the two perceptual
hashes is at most the threshold. -/
def pHashMatch (t l r : Nat) : Prop := popcount64 (l ^^^ r) ≤ t

instance (t l r : Nat) : Decidable (pHashMatch t l r) := Nat.decLe _ _

/-- The find_if over the rhs residual pool inside the erase_if of
ImageComparerHamming::Compare: the first pool element within Hamming
threshold of l, together with the pool with that element removed. -/
def findMatch (t l : Nat) : List Nat → Option (Nat × List Nat)
  | [] => none
  | r :: rs =>
    if pHashMatch t l r then some (r, rs)
    else
      match findMatch t l rs with
      | some (x, rest) => some (x, r :: rest)
      | none => none

/-- The erase_if pass of ImageComparerHamming::Compare: each lhs residual
hash that is nonzero and has an in-threshold partner in the rhs pool is
removed together with that partner.  The third component records the
consumed pairs (lhs hash, rhs hash) for specification purposes. -/
def fuzzyMatch (t : Nat) : List Nat → List Nat → List Nat × List Nat × List (Nat × Nat)
  | [], rp => ([], rp, [])
  | l :: ls, rp =>
    if l = 0 then
      let s := fuzzyMatch t ls rp
      (l :: s.1, s.2.1, s.2.2)
    else
      match findMatch t l rp with
      | some (r, rp1) =>
        let s := fuzzyMatch t ls rp1
        (s.1, s.2.1, (l, r) :: s.2.2)
      | none =>
        let s := fuzzyMatch t ls rp
        (l :: s.1, s.2.1, s.2.2)

/-- ImageComparerHamming::Compare (UniqueFile.cpp), instrumented: returns
the classification together with the list of pairs consumed by fuzzy
matching. -/
def ImageComparerHamming.CompareFull (t : Nat) (lhs rhs : UniqueFile) :
    ImagesCompareResult × List (Nat × Nat) :=
  match coverPhase t lhs.cover rhs.cover with
  | none => (.Varied, [])
  | some r0 =>
    let w := mergeWalk lhs.images rhs.images
    let s :=
      if w.1.1 ≠ [] ∧ w.1.2 ≠ [] then
        fuzzyMatch t (w.1.1 ++ w.2.1.map ImageItem.pHash) (w.1.2 ++ w.2.2.map ImageItem.pHash)
      else (w.1.1, w.1.2, [])
    let consumed := s.2.2
    let r1 := if s.1 ≠ [] then (if r0 = .Inner then .Varied else .Outer) else r0
    if r1 = .Varied then (.Varied, consumed)
    else
      let r2 := if s.2.1 ≠ [] then (if r1 = .Outer then .Varied else .Inner) else r1
      if r2 = .Varied then (.Varied, consumed)
      else if ¬((lhs.images = [] ∨ rhs.images = []) ∧ (lhs.cover.hash = "" ∨ rhs.cover.hash = "")) then
        (r2, consumed)
      else if Util.Intersect lhs.title rhs.title then (r2, consumed)
      else (.Varied, consumed)

/-- ImageComparerHamming::Compare, classification only. -/
def ImageComparerHamming.Compare (t : Nat) (lhs rhs : UniqueFile) : ImagesCompareResult :=
  (ImageComparerHamming.CompareFull t lhs rhs).1

/-- Default hammingThreshold of the UniqueFileStorage constructor
(UniqueFile.h). -/
def defaultHammingThreshold : Nat := 10

/-- UniqueFileStorage state: m_hashDir, m_old (persisted entries keyed by
content hash), m_new (pending buckets: canonical entry plus its duplicate
list) and m_dup (rejected entries paired with their origin). -/
structure UniqueFileStorage where
  hashDir : String := ""
  old     : List (String × UniqueFile) := []
  pend    : List (String × UniqueFile × List UniqueFile) := []
  dup     : List (UniqueFile × UniqueFile) := []
deriving DecidableEq

/-- The m_old loop of UniqueFileStorage::Add: scans the persisted entries
of the bucket, skipping Varied results and results that leave the
candidate preferred, and returns the first persisted entry that captures
the candidate as its duplicate. -/
def oldLoopDecision (cmp : UniqueFile → UniqueFile → ImagesCompareResult)
    (res : UniqueFile → UniqueFile → Bool) (file : UniqueFile) :
    List UniqueFile → Option UniqueFile
  | [] => none
  | o :: os =>
    match cmp o file with
    | .Varied => oldLoopDecision cmp res file os
    | r =>
      if r = .Inner ∨ (r = .Equal ∧ file.hash ≠ o.hash ∧ res file o) then
        oldLoopDecision cmp res file os
      else some o

/-- The m_new loop of UniqueFileStorage::Add: finds the first pending
bucket with the given key whose comparison is not Varied; the candidate
either joins its duplicate list (return value none) or demotes its
canonical entry and takes its place. -/
def newLoop (cmp : UniqueFile → UniqueFile → ImagesCompareResult)
    (res : UniqueFile → UniqueFile → Bool) (hash : String) (file : UniqueFile) :
    List (String × UniqueFile × List UniqueFile) →
    Option (Option UniqueFile × List (String × UniqueFile × List UniqueFile))
  | [] => none
  | (k, canon, dups) :: rest =>
    if k = hash then
      match cmp canon file with
      | .Varied =>
        match newLoop cmp res hash file rest with
        | some (ret, rest1) => some (ret, (k, canon, dups) :: rest1)
        | none => none
      | r =>
        if r = .Outer ∨ (r = .Equal ∧ (res canon file ∨ (¬res file canon ∧ canon.order ≥ file.order))) then
          some (none, (k, canon, dups ++ [file.ClearImages]) :: rest)
        else
          some (some file, (k, file, dups ++ [canon.ClearImages]) :: rest)
    else
      match newLoop cmp res hash file rest with
      | some (ret, rest1) => some (ret, (k, canon, dups) :: rest1)
      | none => none

/-- The first statement of UniqueFileStorage::Add: the transliteration
filler token is erased from the candidate title set. -/
def eraseSi (f : UniqueFile) : UniqueFile :=
  { f with title := f.title.erase siToken }

/-- UniqueFileStorage::Add (UniqueFile.cpp), parameterized by the image
comparer and the conflict resolver actually installed; returns the stored
canonical entry (modelling the returned pointer) and the updated state. -/
def UniqueFileStorage.AddWith (cmp : UniqueFile → UniqueFile → ImagesCompareResult)
    (res : UniqueFile → UniqueFile → Bool) (st : UniqueFileStorage)
    (hash : String) (file0 : UniqueFile) : Option UniqueFile × UniqueFileStorage :=
  let file := eraseSi file0
  if st.hashDir = "" then
    (some file, { st with pend := st.pend ++ [(hash, file, [])] })
  else
    match oldLoopDecision cmp res file ((st.old.filter fun p => p.1 = hash).map Prod.snd) with
    | some o => (none, { st with dup := st.dup ++ [(file.ClearImages, o)] })
    | none =>
      match newLoop cmp res hash file st.pend with
      | some (ret, pend1) => (ret, { st with pend := pend1 })
      | none => (some file, { st with pend := st.pend ++ [(hash, file, [])] })

/-- UniqueFileStorage::Add with the comparer and resolver installed by the
constructor for a Hamming threshold below 64. -/
def UniqueFileStorage.Add (t : Nat) (st : UniqueFileStorage) (hash : String)
    (file : UniqueFile) : Option UniqueFile × UniqueFileStorage :=
  UniqueFileStorage.AddWith (ImageComparerHamming.Compare t)
    UniqueFileConflictResolver.Resolve st hash file

/-- The per-canonical bookkeeping of UniqueFileStorage::Save: the entry is
moved into m_old with its images cleared, then serialized, then its
hashText and hashSections are cleared in place. -/
def savedCanonical (c : UniqueFile) : UniqueFile :=
  { c.ClearImages with hashText := "", hashSections := [] }

/-- The loop of UniqueFileStorage::Save over the pending buckets: returns
the entries appended to m_old, the canonical records serialized (with an
empty origin), and the duplicate pairs appended to m_dup. -/
def savePend : List (String × UniqueFile × List UniqueFile) →
    List (String × UniqueFile) × List (UniqueFile × UniqueFile) × List (UniqueFile × UniqueFile)
  | [] => ([], [], [])
  | (h, c, ds) :: rest =>
    let s := savePend rest
    ((h, savedCanonical c) :: s.1,
     (c.ClearImages, ({} : UniqueFile)) :: s.2.1,
     ds.map (fun d => (d, savedCanonical c)) ++ s.2.2)

/-- UniqueFileStorage::Save (UniqueFile.cpp): returns the updated state
and the list of serialized records, each record being the serialized file
paired with its origin (the origin of a canonical record is a default
UniqueFile, whose empty uid.file suppresses the origin tag).  Filesystem
renaming of duplicate payload files is outside the model. -/
def UniqueFileStorage.Save (st : UniqueFileStorage) :
    UniqueFileStorage × List (UniqueFile × UniqueFile) :=
  if st.pend = [] ∧ st.dup = [] then (st, [])
  else if st.hashDir = "" then ({ st with pend := [] }, [])
  else
    let s := savePend st.pend
    ({ st with old := st.old ++ s.1, pend := [], dup := [] },
     s.2.1 ++ st.dup ++ s.2.2)

/-- Residual image set in the sense of the specification text for the
image comparer: the images of xs whose crypto hash does not occur in ys.
This definition follows the spec wording and is compared against the
behaviour of the source-level merge walk. -/
def specResidual (xs ys : List ImageItem) : List ImageItem :=
  xs.filter fun x => ¬ ys.any fun y => y.hash = x.hash

/-- Unicode general categories needed by the title pipeline of book.cpp,
collapsed to the distinctions the code tests: QChar::Number_DecimalDigit,
QChar::Letter_Lowercase, QChar::Letter_Uppercase, the separator and
control categories mapped to space by PrepareTitle, the punctuation block
Punctuation_Connector..Punctuation_Other, and everything else. -/
inductive QCharCategory where
  | numberDecimalDigit
  | letterLowercase
  | letterUppercase
  | separatorSpace
  | otherControl
  | punctuation
  | symbolOther
deriving DecidableEq

/-- QChar::category, modelled on the domain the title claims exercise:
the full ASCII range (faithful to the Unicode category table there) and
the Russian Cyrillic letter block. -/
def qcharCategory (c : Nat) : QCharCategory :=
  if c < 32 ∨ c = 127 then .otherControl
  else if c = 32 then .separatorSpace
  else if 48 ≤ c ∧ c ≤ 57 then .numberDecimalDigit
  else if 65 ≤ c ∧ c ≤ 90 then .letterUppercase
  else if 97 ≤ c ∧ c ≤ 122 then .letterLowercase
  else if c = 36 ∨ c = 43 ∨ c = 60 ∨ c = 61 ∨ c = 62 ∨ c = 94 ∨ c = 96 ∨ c = 124 ∨ c = 126 then
    .symbolOther
  else if c < 128 then .punctuation
  else if (1072 ≤ c ∧ c ≤ 1103) ∨ c = 1105 then .letterLowercase
  else if (1040 ≤ c ∧ c ≤ 1071) ∨ c = 1025 then .letterUppercase
  else .symbolOther

/-- QString::toLower on the same domain: ASCII letters and the Russian
Cyrillic letter block. -/
def qcharToLower (c : Nat) : Nat :=
  if 65 ≤ c ∧ c ≤ 90 then c + 32
  else if 1040 ≤ c ∧ c ≤ 1071 then c + 32
  else if c = 1025 then 1105
  else c

/-- The per-character transform of PrepareTitle (book.cpp): the
replacementChar table (U+0451 to U+0435, U+0439 to U+0438, U+044A to
U+044C), then separators, control characters and punctuation mapped to a
space. -/
def prepareChar (c : Nat) : Nat :=
  if c = 1105 then 1077
  else if c = 1081 then 1080
  else if c = 1098 then 1100
  else
    match qcharCategory c with
    | .separatorSpace => 32
    | .otherControl => 32
    | .punctuation => 32
    | _ => c

/-- The replacementString pass of PrepareTitle: every occurrence of the
two-character sequence U+044B U+043E is replaced by U+044C U+044E, left
to right. -/
def replaceYoYu : List Nat → List Nat
  | [] => []
  | [c] => [c]
  | c1 :: c2 :: rest =>
    if c1 = 1099 ∧ c2 = 1086 then 1100 :: 1102 :: replaceYoYu rest
    else c1 :: replaceYoYu (c2 :: rest)

/-- PrepareTitle (book.cpp) over a title given as a list of character
code points. -/
def PrepareTitle (s : List Nat) : List Nat :=
  replaceYoYu ((s.map qcharToLower).map prepareChar)

/-- The removeIf pass at the top of SimplifyTitle (book.cpp): only
spaces, decimal digits and lowercase letters survive. -/
def simplifyFilter (s : List Nat) : List Nat :=
  s.filter fun c =>
    c = 32 ∨ qcharCategory c = .numberDecimalDigit ∨ qcharCategory c = .letterLowercase

/-- QString::split on a space, keeping empty parts (the split used inside
SimplifyTitle). -/
def splitOnSpace : List Nat → List (List Nat)
  | [] => [[]]
  | c :: rest =>
    match splitOnSpace rest with
    | w :: ws => if c = 32 then [] :: w :: ws else (c :: w) :: ws
    | [] => [[c]]

/-- SimplifyTitle (book.cpp): the function mutates value with the
character filter and returns it.  The digit-extraction loop in its body
writes only into the local QStringList named split, which the function
never reads back, so it does not affect the returned value. -/
def SimplifyTitle (s : List Nat) : List Nat :=
  simplifyFilter s

/-- The final value of the discarded local QStringList split inside
SimplifyTitle: every word reduced to its lowercase letters, followed by
one pseudo-token per word that contained digits, holding those digits in
order.  SimplifyTitle computes this list and then drops it. -/
def simplifyTitleSplitResult (s : List Nat) : List (List Nat) :=
  let parts := splitOnSpace (simplifyFilter s)
  parts.map (fun w => w.filter fun c => qcharCategory c = .letterLowercase)
    ++ (parts.map fun w => w.filter fun c => qcharCategory c = .numberDecimalDigit).filter
        fun w => w ≠ []

/-- The token set a caller derives from a title: OnBookParsed in
UniqueFile.cpp runs SimplifyTitle(PrepareTitle(title)) and then splits
the result on spaces skipping empty parts. -/
def titleTokens (s : List Nat) : List (List Nat) :=
  (splitOnSpace (SimplifyTitle (PrepareTitle s))).filter fun w => w ≠ []

/-- Character code points of a string. -/
def codes (s : String) : List Nat :=
  s.data.map Char.toNat

/-- Entry 1 of the concrete scenario in the spec (section 8): one image
with crypto hash h1 and perceptual hash 0, order 1. -/
def entry1 : UniqueFile :=
  { uid := { folder := "f", file := "1.fb2" }
    images := [{ hash := "h1", pHash := 0 }]
    order := 1 }

/-- Entry 2 of the concrete scenario in the spec (section 8): images h1
(perceptual hash 0) and h2 (perceptual hash 0xFFFFFFFFFFFFFFFF), order
2. -/
def entry2 : UniqueFile :=
  { uid := { folder := "f", file := "2.fb2" }
    images := [{ hash := "h1", pHash := 0 }, { hash := "h2", pHash := 18446744073709551615 }]
    order := 2 }

/-- A storage freshly constructed over an empty persisted store with a
nonempty destination directory. -/
def emptyStorage : UniqueFileStorage := { hashDir := "d" }

/-- Lhs entry of the zero-hash fuzzy-match scenario: a single residual
image whose nonzero perceptual hash 1 is within the default threshold of
0. -/
def zLhs : UniqueFile := { images := [{ hash := "b", pHash := 1 }] }

/-- Rhs entry of the zero-hash fuzzy-match scenario: a residual image
with perceptual hash 0 and one with the all-ones hash, which lies at
Hamming distance 63 from the lhs hash 1 — far beyond the threshold, so
the zero is the only pool element the find_if predicate accepts and the
consumed partner does not depend on the iteration order of the
unordered_multiset. -/
def zRhs : UniqueFile :=
  { images := [{ hash := "a", pHash := 0 }, { hash := "c", pHash := 18446744073709551615 }] }

/-- Witness entry with a single image whose crypto hash sorts second. -/
def wInner : UniqueFile := { images := [{ hash := "h2", pHash := 3 }] }

/-- Witness entry with two images, a strict superset of wInner whose
extra image sorts first. -/
def wOuter : UniqueFile :=
  { images := [{ hash := "h1", pHash := 9 }, { hash := "h2", pHash := 3 }] }

/-- Degenerate entry: no images, no cover, empty title. -/
def degenerateEntry : UniqueFile := { uid := { folder := "f", file := "x.fb2" } }

/-- Concrete nondegenerate entry used by witnesses. -/
def plainEntry : UniqueFile :=
  { uid := { folder := "f", file := "y.fb2" }
    images := [{ hash := "h1", pHash := 5 }]
    order := 3 }

/-- Entry A of the pure-tail superset pair: a single image h1. -/
def tailSubA : UniqueFile :=
  { uid := { folder := "f", file := "a.fb2" }, images := [{ hash := "h1", pHash := 3 }] }

/-- Entry B of the pure-tail superset pair: images h1 and h2, a strict
superset of tailSubA whose extra image sorts after every image of
tailSubA. -/
def tailSupB : UniqueFile :=
  { uid := { folder := "f", file := "b.fb2" }
    images := [{ hash := "h1", pHash := 3 }, { hash := "h2", pHash := 7 }] }

/-- Concrete populated storage used by the Save witness. -/
def saveStorage : UniqueFileStorage :=
  { hashDir := "d"
    old := [("x", degenerateEntry)]
    pend := [("h", plainEntry, [entry1]), ("k", degenerateEntry, [])]
    dup := [(entry2.ClearImages, plainEntry)] }


/-- Strict sortedness of an image list by crypto hash: the invariant
std::set<ImageItem> maintains. -/
def imagesSorted (l : List ImageItem) : Prop :=
  l.Pairwise fun x y => QStringLt x.hash y.hash = true

instance (l : List ImageItem) : Decidable (imagesSorted l) := by
  unfold imagesSorted
  infer_instance

theorem qcharsLt_irrefl (l : List Char) : qcharsLt l l = false := by
  induction l with
  | nil => rfl
  | cons a as ih => simp [qcharsLt, ih]

theorem qcharsLt_asymm (a b : List Char) (h : qcharsLt a b = true) : qcharsLt b a = false := by
  induction a generalizing b with
  | nil =>
    cases b with
    | nil => simp [qcharsLt] at h
    | cons y ys => rfl
  | cons x xs ih =>
    cases b with
    | nil => simp [qcharsLt] at h
    | cons y ys =>
      by_cases h1 : x.toNat < y.toNat
      · have h2 : ¬ y.toNat < x.toNat := by omega
        simp [qcharsLt, h1, h2]
      · by_cases h2 : y.toNat < x.toNat
        · simp [qcharsLt, h1, h2] at h
        · simp [qcharsLt, h1, h2] at h ⊢
          exact ih ys h

theorem qstringLt_irrefl (s : String) : QStringLt s s = false :=
  qcharsLt_irrefl s.data

theorem qstringLt_asymm {a b : String} (h : QStringLt a b = true) : QStringLt b a = false :=
  qcharsLt_asymm a.data b.data h

theorem mergeWalk_nil_left (rs : List ImageItem) : mergeWalk [] rs = (([], []), ([], rs)) := rfl

theorem mergeWalk_nil_right (l : ImageItem) (ls : List ImageItem) :
    mergeWalk (l :: ls) [] = (([], []), (l :: ls, [])) := rfl

theorem mergeWalk_lt (l r : ImageItem) (ls rs : List ImageItem)
    (h : QStringLt l.hash r.hash = true) :
    mergeWalk (l :: ls) (r :: rs) =
      ((l.pHash :: (mergeWalk ls (r :: rs)).1.1, (mergeWalk ls (r :: rs)).1.2),
        (mergeWalk ls (r :: rs)).2) := by
  have hgt : QStringLt r.hash l.hash = false := qstringLt_asymm h
  simp [mergeWalk, stripBelow, h, hgt]

theorem mergeWalk_gt (l r : ImageItem) (ls rs : List ImageItem)
    (h : QStringLt r.hash l.hash = true) :
    mergeWalk (l :: ls) (r :: rs) =
      (((mergeWalk (l :: ls) rs).1.1, r.pHash :: (mergeWalk (l :: ls) rs).1.2),
        (mergeWalk (l :: ls) rs).2) := by
  cases h2 : (stripBelow l rs).2 with
  | nil => simp [mergeWalk, stripBelow, h, h2]
  | cons r1 rs1 =>
    by_cases h3 : QStringLt l.hash r1.hash = true
    · simp [mergeWalk, stripBelow, h, h2, h3]
    · simp [mergeWalk, stripBelow, h, h2, h3]

theorem mergeWalk_cancel (l r : ImageItem) (ls rs : List ImageItem)
    (h1 : QStringLt l.hash r.hash = false) (h2 : QStringLt r.hash l.hash = false) :
    mergeWalk (l :: ls) (r :: rs) = mergeWalk ls rs := by
  simp [mergeWalk, stripBelow, h1, h2]

theorem walk_self (l : List ImageItem) : mergeWalk l l = (([], []), ([], [])) := by
  induction l with
  | nil => rfl
  | cons i l ih =>
    rw [mergeWalk_cancel i i l l (qstringLt_irrefl _) (qstringLt_irrefl _), ih]

theorem intersect_self (l : List String) (h : l ≠ []) : Util.Intersect l l = true := by
  cases l with
  | nil => exact absurd rfl h
  | cons a as => simp [Util.Intersect]

theorem walk_inputs_ne (ls rs : List ImageItem)
    (h : (mergeWalk ls rs).1.1 ≠ [] ∨ (mergeWalk ls rs).1.2 ≠ []) : ls ≠ [] ∧ rs ≠ [] := by
  match ls, rs with
  | [], rs => rw [mergeWalk_nil_left] at h; simp at h
  | l :: ls, [] => rw [mergeWalk_nil_right] at h; simp at h
  | l :: ls, r :: rs => exact ⟨List.cons_ne_nil _ _, List.cons_ne_nil _ _⟩

theorem compare_self_equal (t : Nat) (e : UniqueFile)
    (hnd : e.images ≠ [] ∨ e.cover.hash ≠ "" ∨ e.title ≠ []) :
    ImageComparerHamming.Compare t e e = .Equal := by
  have hcov : coverPhase t e.cover e.cover = some .Equal := by simp [coverPhase]
  by_cases hi : e.images = []
  · by_cases hc : e.cover.hash = ""
    · have ht : e.title ≠ [] := by
        rcases hnd with h | h | h
        · exact absurd hi h
        · exact absurd hc h
        · exact h
      simp [ImageComparerHamming.Compare, ImageComparerHamming.CompareFull, hcov, walk_self,
        hi, hc, intersect_self e.title ht]
    · simp [ImageComparerHamming.Compare, ImageComparerHamming.CompareFull, hcov, walk_self, hc]
  · simp [ImageComparerHamming.Compare, ImageComparerHamming.CompareFull, hcov, walk_self, hi]

theorem compare_inner_of_walk (t : Nat) (lhs rhs : UniqueFile)
    (hc : lhs.cover.hash = rhs.cover.hash)
    (h1 : (mergeWalk lhs.images rhs.images).1.1 = [])
    (h2 : (mergeWalk lhs.images rhs.images).1.2 ≠ []) :
    ImageComparerHamming.Compare t lhs rhs = .Inner := by
  have hne := walk_inputs_ne lhs.images rhs.images (Or.inr h2)
  have hcov : coverPhase t lhs.cover rhs.cover = some .Equal := by simp [coverPhase, hc]
  simp [ImageComparerHamming.Compare, ImageComparerHamming.CompareFull, hcov, h1, h2,
    hne.1, hne.2]

theorem compare_outer_of_walk (t : Nat) (lhs rhs : UniqueFile)
    (hc : lhs.cover.hash = rhs.cover.hash)
    (h1 : (mergeWalk lhs.images rhs.images).1.2 = [])
    (h2 : (mergeWalk lhs.images rhs.images).1.1 ≠ []) :
    ImageComparerHamming.Compare t lhs rhs = .Outer := by
  have hne := walk_inputs_ne lhs.images rhs.images (Or.inl h2)
  have hcov : coverPhase t lhs.cover rhs.cover = some .Equal := by simp [coverPhase, hc]
  simp [ImageComparerHamming.Compare, ImageComparerHamming.CompareFull, hcov, h1, h2,
    hne.1, hne.2]

theorem walk_sublist_lp {as bs : List ImageItem} (hsub : as.Sublist bs) :
    imagesSorted bs → (mergeWalk as bs).1.1 = [] := by
  induction hsub with
  | slnil => intro _; rfl
  | @cons as bs b hsub ih =>
    intro hs
    cases as with
    | nil => rfl
    | cons a as1 =>
      have hmem : a ∈ bs := hsub.subset (List.mem_cons_self a as1)
      have hba : QStringLt b.hash a.hash = true := (List.pairwise_cons.mp hs).1 a hmem
      rw [mergeWalk_gt a b as1 bs hba]
      exact ih (List.pairwise_cons.mp hs).2
  | @cons₂ as bs a hsub ih =>
    intro hs
    rw [mergeWalk_cancel a a as bs (qstringLt_irrefl _) (qstringLt_irrefl _)]
    exact ih (List.pairwise_cons.mp hs).2

theorem walk_sublist_rp_ne {as bs : List ImageItem} (hsub : as.Sublist bs) :
    imagesSorted bs →
    (∃ b, b ∈ bs ∧ b ∉ as ∧ ∃ a, a ∈ as ∧ QStringLt b.hash a.hash = true) →
    (mergeWalk as bs).1.2 ≠ [] := by
  induction hsub with
  | slnil =>
    intro _ hex
    rcases hex with ⟨x, hx, _⟩
    exact absurd hx (List.not_mem_nil x)
  | @cons as bs b hsub ih =>
    intro hs hex
    cases as with
    | nil =>
      rcases hex with ⟨x, hx, hnx, a0, ha0, hlt⟩
      exact absurd ha0 (List.not_mem_nil a0)
    | cons a as1 =>
      have hmem : a ∈ bs := hsub.subset (List.mem_cons_self a as1)
      have hba : QStringLt b.hash a.hash = true := (List.pairwise_cons.mp hs).1 a hmem
      rw [mergeWalk_gt a b as1 bs hba]
      simp
  | @cons₂ as bs a hsub ih =>
    intro hs hex
    rw [mergeWalk_cancel a a as bs (qstringLt_irrefl _) (qstringLt_irrefl _)]
    apply ih (List.pairwise_cons.mp hs).2
    rcases hex with ⟨x, hx, hnx, a0, ha0, hlt⟩
    have hxa : x ≠ a := fun he => hnx (he ▸ List.mem_cons_self a as)
    have hxbs : x ∈ bs := by
      rcases List.mem_cons.mp hx with he | hm
      · exact absurd he hxa
      · exact hm
    have hax : QStringLt a.hash x.hash = true := (List.pairwise_cons.mp hs).1 x hxbs
    have ha0' : a0 ∈ as := by
      rcases List.mem_cons.mp ha0 with he | hm
      · exfalso
        subst he
        simp [qstringLt_asymm hax] at hlt
      · exact hm
    exact ⟨x, hxbs, fun hc => hnx (List.mem_cons_of_mem a hc), a0, ha0', hlt⟩

theorem walk_super_rp {as bs : List ImageItem} (hsub : as.Sublist bs) :
    imagesSorted bs → (mergeWalk bs as).1.2 = [] := by
  induction hsub with
  | slnil => intro _; rfl
  | @cons as bs b hsub ih =>
    intro hs
    cases as with
    | nil => rfl
    | cons a as1 =>
      have hmem : a ∈ bs := hsub.subset (List.mem_cons_self a as1)
      have hba : QStringLt b.hash a.hash = true := (List.pairwise_cons.mp hs).1 a hmem
      rw [mergeWalk_lt b a bs as1 hba]
      exact ih (List.pairwise_cons.mp hs).2
  | @cons₂ as bs a hsub ih =>
    intro hs
    rw [mergeWalk_cancel a a bs as (qstringLt_irrefl _) (qstringLt_irrefl _)]
    exact ih (List.pairwise_cons.mp hs).2

theorem walk_super_lp_ne {as bs : List ImageItem} (hsub : as.Sublist bs) :
    imagesSorted bs →
    (∃ b, b ∈ bs ∧ b ∉ as ∧ ∃ a, a ∈ as ∧ QStringLt b.hash a.hash = true) →
    (mergeWalk bs as).1.1 ≠ [] := by
  induction hsub with
  | slnil =>
    intro _ hex
    rcases hex with ⟨x, hx, _⟩
    exact absurd hx (List.not_mem_nil x)
  | @cons as bs b hsub ih =>
    intro hs hex
    cases as with
    | nil =>
      rcases hex with ⟨x, hx, hnx, a0, ha0, hlt⟩
      exact absurd ha0 (List.not_mem_nil a0)
    | cons a as1 =>
      have hmem : a ∈ bs := hsub.subset (List.mem_cons_self a as1)
      have hba : QStringLt b.hash a.hash = true := (List.pairwise_cons.mp hs).1 a hmem
      rw [mergeWalk_lt b a bs as1 hba]
      simp
  | @cons₂ as bs a hsub ih =>
    intro hs hex
    rw [mergeWalk_cancel a a bs as (qstringLt_irrefl _) (qstringLt_irrefl _)]
    apply ih (List.pairwise_cons.mp hs).2
    rcases hex with ⟨x, hx, hnx, a0, ha0, hlt⟩
    have hxa : x ≠ a := fun he => hnx (he ▸ List.mem_cons_self a as)
    have hxbs : x ∈ bs := by
      rcases List.mem_cons.mp hx with he | hm
      · exact absurd he hxa
      · exact hm
    have hax : QStringLt a.hash x.hash = true := (List.pairwise_cons.mp hs).1 x hxbs
    have ha0' : a0 ∈ as := by
      rcases List.mem_cons.mp ha0 with he | hm
      · exfalso
        subst he
        simp [qstringLt_asymm hax] at hlt
      · exact hm
    exact ⟨x, hxbs, fun hc => hnx (List.mem_cons_of_mem a hc), a0, ha0', hlt⟩

theorem compare_superset_inner (t : Nat) (A B : UniqueFile)
    (hcov : A.cover.hash = B.cover.hash)
    (hsub : A.images.Sublist B.images)
    (hs : imagesSorted B.images)
    (hex : ∃ b, b ∈ B.images ∧ b ∉ A.images ∧ ∃ a, a ∈ A.images ∧ QStringLt b.hash a.hash = true) :
    ImageComparerHamming.Compare t A B = .Inner :=
  compare_inner_of_walk t A B hcov (walk_sublist_lp hsub hs) (walk_sublist_rp_ne hsub hs hex)

theorem compare_superset_outer (t : Nat) (A B : UniqueFile)
    (hcov : A.cover.hash = B.cover.hash)
    (hsub : A.images.Sublist B.images)
    (hs : imagesSorted B.images)
    (hex : ∃ b, b ∈ B.images ∧ b ∉ A.images ∧ ∃ a, a ∈ A.images ∧ QStringLt b.hash a.hash = true) :
    ImageComparerHamming.Compare t B A = .Outer :=
  compare_outer_of_walk t B A hcov.symm (walk_super_rp hsub hs) (walk_super_lp_ne hsub hs hex)

theorem addWith_no_old (cmp : UniqueFile → UniqueFile → ImagesCompareResult)
    (res : UniqueFile → UniqueFile → Bool) (st : UniqueFileStorage) (h : String)
    (f : UniqueFile) (hd : st.hashDir ≠ "") (hold : st.old = []) :
    UniqueFileStorage.AddWith cmp res st h f =
      (match newLoop cmp res h (eraseSi f) st.pend with
       | some (ret, pend1) => (ret, { st with pend := pend1 })
       | none => (some (eraseSi f), { st with pend := st.pend ++ [(h, eraseSi f, [])] })) := by
  simp [UniqueFileStorage.AddWith, hd, hold, oldLoopDecision]

theorem addWith_fresh (cmp : UniqueFile → UniqueFile → ImagesCompareResult)
    (res : UniqueFile → UniqueFile → Bool) (st : UniqueFileStorage) (h : String)
    (f : UniqueFile) (hd : st.hashDir ≠ "") (hold : st.old = []) (hpend : st.pend = []) :
    UniqueFileStorage.AddWith cmp res st h f =
      (some (eraseSi f), { st with pend := [(h, eraseSi f, [])] }) := by
  rw [addWith_no_old cmp res st h f hd hold, hpend]
  simp [newLoop]

/-- C1.  The claim states that against an empty persisted store, after
Add(entry1), the call Add(entry2) classifies the comparison of the two
entries as Outer.  Counterexample: the comparison performed by Add, which
is Compare(entry1, entry2) at the default threshold, evaluates to Equal,
not Outer: the shared image h1 is cancelled by the merge walk, the loop
then stops at the end of the shorter side, and the extra image h2 of
entry2 is never collected into a residue. -/
theorem c1_counterexample :
    ImageComparerHamming.Compare defaultHammingThreshold entry1 entry2 = .Equal
    ∧ ImageComparerHamming.Compare defaultHammingThreshold entry1 entry2 ≠ .Outer := by
  decide

/-- C1 (amended).  Add(entry1) then Add(entry2) against an empty persisted
store classifies the pair Equal; the Equal tie-break then prefers entry2
(the resolver does not prefer the existing entry1, and the existing order
1 is not at least order 2), so the final state does have entry2 as the
canonical entry of the bucket with entry1 recorded, images stripped, as
its duplicate, and the second Add returns entry2. -/
theorem c1_amended :
    (UniqueFileStorage.Add defaultHammingThreshold
        (UniqueFileStorage.Add defaultHammingThreshold emptyStorage "abc123" entry1).2
        "abc123" entry2).1 = some entry2
    ∧ (UniqueFileStorage.Add defaultHammingThreshold
        (UniqueFileStorage.Add defaultHammingThreshold emptyStorage "abc123" entry1).2
        "abc123" entry2).2.pend = [("abc123", entry2, [entry1.ClearImages])]
    ∧ ImageComparerHamming.Compare defaultHammingThreshold entry1 entry2 = .Equal := by
  decide

/-- C2.  The claim states that an image whose perceptual hash is 0 is
never counted as a fuzzy match with any other image.  Counterexample: in
the comparison of zLhs and zRhs the fuzzy pass consumes the pair (1, 0),
whose rhs endpoint is the zero hash: the guard in the erase_if lambda only
skips a zero lhs hash, and the rhs candidate 0 lies within Hamming
distance 1 of the lhs hash 1 while the only other pool element lies at
distance 63, beyond the threshold — so the zero is consumed whatever
iteration order the unordered_multiset presents, and the classification
becomes Inner where a comparison that refused the zero would leave both
residues nonempty and classify Varied. -/
theorem c2_counterexample :
    ImageComparerHamming.CompareFull defaultHammingThreshold zLhs zRhs = (.Inner, [(1, 0)]) := by
  decide

/-- C2 (amended).  Only the lhs endpoint is protected: no pair consumed by
the fuzzy pass has a zero lhs perceptual hash.  A zero rhs hash can still
be consumed, as the counterexample shows; cover matching, by contrast,
rejects a zero on either side. -/
theorem c2_amended (t : Nat) (lp rp : List Nat) (p : Nat × Nat)
    (hp : p ∈ (fuzzyMatch t lp rp).2.2) : p.1 ≠ 0 := by
  induction lp generalizing rp with
  | nil => simp [fuzzyMatch] at hp
  | cons l ls ih =>
    by_cases hl : l = 0
    · simp [fuzzyMatch, hl] at hp
      exact ih _ hp
    · cases hfm : findMatch t l rp with
      | some pr =>
        rw [fuzzyMatch, if_neg hl, hfm] at hp
        simp at hp
        rcases hp with hp | hp
        · rw [hp]
          exact hl
        · exact ih _ hp
      | none =>
        rw [fuzzyMatch, if_neg hl, hfm] at hp
        simp at hp
        exact ih _ hp

theorem c2_witness :
    ((5, 5) ∈ (fuzzyMatch defaultHammingThreshold [5] [5]).2.2)
    ∧ ((5, 5) : Nat × Nat).1 ≠ 0 :=
  ⟨by decide, c2_amended defaultHammingThreshold [5] [5] (5, 5) (by decide)⟩

/-- C3.  The claim states that whenever the lhs residual set (images not
cancelled by an identical crypto hash) is empty and the rhs residual is
not, the comparison classifies Inner.  Counterexample: for entry1 and
entry2 the spec-level lhs residual is empty and the rhs residual holds
h2, yet Compare returns Equal: the merge walk stops at the end of the
shorter side and never collects the tail image h2 into the residue it
classifies from. -/
theorem c3_counterexample :
    specResidual entry1.images entry2.images = []
    ∧ specResidual entry2.images entry1.images ≠ []
    ∧ ImageComparerHamming.Compare defaultHammingThreshold entry1 entry2 ≠ .Inner := by
  decide

/-- C3 (amended).  With equal cover hashes, the imbalance rule holds for
the residues actually collected by the merge walk, which exclude the tail
of the longer side whenever the walk collected nothing for the other
side: if the collected lhs residue is empty and the collected rhs residue
is not, Compare returns Inner with fuzzy matching skipped, and
symmetrically Outer when rhs collected nothing and lhs did. -/
theorem c3_amended (t : Nat) (lhs rhs : UniqueFile)
    (hc : lhs.cover.hash = rhs.cover.hash) :
    ((mergeWalk lhs.images rhs.images).1.1 = [] →
      (mergeWalk lhs.images rhs.images).1.2 ≠ [] →
      ImageComparerHamming.Compare t lhs rhs = .Inner)
    ∧ ((mergeWalk lhs.images rhs.images).1.2 = [] →
      (mergeWalk lhs.images rhs.images).1.1 ≠ [] →
      ImageComparerHamming.Compare t lhs rhs = .Outer) :=
  ⟨fun h1 h2 => compare_inner_of_walk t lhs rhs hc h1 h2,
   fun h1 h2 => compare_outer_of_walk t lhs rhs hc h1 h2⟩

theorem c3_witness :
    ImageComparerHamming.Compare defaultHammingThreshold wInner wOuter = .Inner
    ∧ ImageComparerHamming.Compare defaultHammingThreshold wOuter wInner = .Outer :=
  ⟨(c3_amended defaultHammingThreshold wInner wOuter rfl).1 (by decide) (by decide),
   (c3_amended defaultHammingThreshold wOuter wInner rfl).2 (by decide) (by decide)⟩

/-- C4.  A candidate pair of nonzero perceptual hashes at Hamming distance
exactly the threshold satisfies the acceptance predicate and is consumed
when considered (it heads the consumed list when it heads the residues),
while a pair at distance threshold plus one fails the predicate and a
lone such pair is left unmatched on both sides. -/
theorem c4_threshold_boundary (t l r l2 r2 : Nat) (ls rs : List Nat)
    (hl : l ≠ 0) (hl2 : l2 ≠ 0)
    (hexact : popcount64 (l ^^^ r) = t)
    (hover : popcount64 (l2 ^^^ r2) = t + 1) :
    pHashMatch t l r
    ∧ ¬ pHashMatch t l2 r2
    ∧ ((fuzzyMatch t (l :: ls) (r :: rs)).2.2).head? = some (l, r)
    ∧ fuzzyMatch t [l2] [r2] = ([l2], [r2], []) := by
  have hm : pHashMatch t l r := by unfold pHashMatch; rw [hexact]
  have hnm : ¬ pHashMatch t l2 r2 := by unfold pHashMatch; rw [hover]; omega
  have hfm : findMatch t l (r :: rs) = some (r, rs) := by
    rw [findMatch, if_pos hm]
  have hfm2 : findMatch t l2 [r2] = none := by
    rw [findMatch, if_neg hnm]
    rfl
  refine ⟨hm, hnm, ?_, ?_⟩
  · rw [fuzzyMatch, if_neg hl, hfm]
    rfl
  · rw [fuzzyMatch, if_neg hl2, hfm2]
    rfl

theorem c4_witness :
    pHashMatch defaultHammingThreshold 1049599 1048576
    ∧ ¬ pHashMatch defaultHammingThreshold 1050623 1048576
    ∧ ((fuzzyMatch defaultHammingThreshold [1049599] [1048576]).2.2).head?
        = some (1049599, 1048576)
    ∧ fuzzyMatch defaultHammingThreshold [1050623] [1048576] = ([1050623], [1048576], []) :=
  c4_threshold_boundary defaultHammingThreshold 1049599 1048576 1050623 1048576 [] []
    (by decide) (by decide) (by decide) (by decide)

/-- C5.  The claim states that re-adding an entry identical to one
already stored classifies Equal, returns None, and does not create a
second canonical entry.  Counterexample: for an entry with no images, no
cover and an empty title the self-comparison is Varied (the safety net:
no image evidence and non-overlapping titles), so the second Add scans
past the existing bucket, returns the candidate, and the bucket ends up
with two canonical entries. -/
theorem c5_counterexample :
    ImageComparerHamming.Compare defaultHammingThreshold degenerateEntry degenerateEntry
      = .Varied
    ∧ (UniqueFileStorage.Add defaultHammingThreshold
        (UniqueFileStorage.Add defaultHammingThreshold emptyStorage "h" degenerateEntry).2
        "h" degenerateEntry).1 = some degenerateEntry
    ∧ (UniqueFileStorage.Add defaultHammingThreshold
        (UniqueFileStorage.Add defaultHammingThreshold emptyStorage "h" degenerateEntry).2
        "h" degenerateEntry).2.pend
      = [("h", degenerateEntry, []), ("h", degenerateEntry, [])] := by
  decide

/-- C5 (amended).  For an entry that is not fully degenerate (it has an
image, or a cover, or a nonempty title after erasing the transliteration
filler token), re-adding it to an empty store classifies Equal, the exact
tie is resolved in favour of the existing canonical (the resolver prefers
neither side and the existing order is at least the candidate order), the
second Add returns None, and the bucket keeps a single canonical entry
with the re-added copy stripped into its duplicate list. -/
theorem c5_amended (t : Nat) (d h : String) (e : UniqueFile) (hd : d ≠ "")
    (hsi : siToken ∉ e.title)
    (hnd : e.images ≠ [] ∨ e.cover.hash ≠ "" ∨ e.title ≠ []) :
    ImageComparerHamming.Compare t e e = .Equal
    ∧ (UniqueFileStorage.Add t
        (UniqueFileStorage.Add t { hashDir := d } h e).2 h e).1 = none
    ∧ (UniqueFileStorage.Add t
        (UniqueFileStorage.Add t { hashDir := d } h e).2 h e).2.pend
      = [(h, e, [e.ClearImages])] := by
  have he : eraseSi e = e := by
    simp [eraseSi, List.erase_of_not_mem hsi]
  have hc : ImageComparerHamming.Compare t e e = .Equal := compare_self_equal t e hnd
  have hAdd1 : UniqueFileStorage.Add t { hashDir := d } h e
      = (some e, { hashDir := d, old := [], pend := [(h, e, [])], dup := [] }) := by
    rw [UniqueFileStorage.Add, addWith_fresh _ _ _ _ _ hd rfl rfl, he]
  have hnl : newLoop (ImageComparerHamming.Compare t) UniqueFileConflictResolver.Resolve
      h e [(h, e, [])] = some (none, [(h, e, [e.ClearImages])]) := by
    simp [newLoop, hc, UniqueFileConflictResolver.Resolve]
  have hAdd2 : UniqueFileStorage.Add t
      { hashDir := d, old := [], pend := [(h, e, [])], dup := [] } h e
      = (none, { hashDir := d, old := [], pend := [(h, e, [e.ClearImages])], dup := [] }) := by
    rw [UniqueFileStorage.Add, addWith_no_old _ _ _ _ _ hd rfl, he, hnl]
  refine ⟨hc, ?_, ?_⟩ <;> simp [hAdd1, hAdd2]

theorem c5_witness :
    ImageComparerHamming.Compare defaultHammingThreshold plainEntry plainEntry = .Equal
    ∧ (UniqueFileStorage.Add defaultHammingThreshold
        (UniqueFileStorage.Add defaultHammingThreshold { hashDir := "d" } "h" plainEntry).2
        "h" plainEntry).1 = none
    ∧ (UniqueFileStorage.Add defaultHammingThreshold
        (UniqueFileStorage.Add defaultHammingThreshold { hashDir := "d" } "h" plainEntry).2
        "h" plainEntry).2.pend
      = [("h", plainEntry, [plainEntry.ClearImages])] :=
  c5_amended defaultHammingThreshold "d" "h" plainEntry (by decide) (by decide) (by decide)

/-- C6.  The claim states that for every pair sharing a content hash with
B a strict image superset of A, Add(A);Add(B) and Add(B);Add(A) converge
to B canonical with A its duplicate.  Counterexample: for tailSubA and
tailSupB (the extra image of the superset sorts after the shared one)
both comparisons classify Equal, the order tie-break keeps whichever
entry was added first, and the two call sequences end in different
states — the A-first sequence even keeps A canonical. -/
theorem c6_counterexample :
    (UniqueFileStorage.Add defaultHammingThreshold
        (UniqueFileStorage.Add defaultHammingThreshold emptyStorage "h" tailSubA).2
        "h" tailSupB).2
      ≠ (UniqueFileStorage.Add defaultHammingThreshold
        (UniqueFileStorage.Add defaultHammingThreshold emptyStorage "h" tailSupB).2
        "h" tailSubA).2
    ∧ (UniqueFileStorage.Add defaultHammingThreshold
        (UniqueFileStorage.Add defaultHammingThreshold emptyStorage "h" tailSubA).2
        "h" tailSupB).2.pend
      = [("h", tailSubA, [tailSupB.ClearImages])] := by
  decide

/-- C6 (amended).  If additionally at least one of the extra images of
the superset B sorts (by crypto hash) before some image of A — so that
the merge walk collects residue on the rhs before the lhs side runs out —
and the two covers carry the same hash, then the two call sequences do
converge: both end with B canonical and A stripped into its duplicate
list, Add returning B in one order and None in the other. -/
theorem c6_amended (t : Nat) (d h : String) (A B : UniqueFile) (hd : d ≠ "")
    (hs : imagesSorted B.images)
    (hsub : A.images.Sublist B.images)
    (hex : ∃ b, b ∈ B.images ∧ b ∉ A.images ∧ ∃ a, a ∈ A.images ∧ QStringLt b.hash a.hash = true)
    (hcov : A.cover.hash = B.cover.hash) :
    (UniqueFileStorage.Add t (UniqueFileStorage.Add t { hashDir := d } h A).2 h B).2
      = (UniqueFileStorage.Add t (UniqueFileStorage.Add t { hashDir := d } h B).2 h A).2
    ∧ (UniqueFileStorage.Add t (UniqueFileStorage.Add t { hashDir := d } h A).2 h B).2.pend
      = [(h, eraseSi B, [(eraseSi A).ClearImages])]
    ∧ (UniqueFileStorage.Add t (UniqueFileStorage.Add t { hashDir := d } h A).2 h B).1
      = some (eraseSi B)
    ∧ (UniqueFileStorage.Add t (UniqueFileStorage.Add t { hashDir := d } h B).2 h A).1
      = none := by
  have hInner : ImageComparerHamming.Compare t (eraseSi A) (eraseSi B) = .Inner :=
    compare_superset_inner t (eraseSi A) (eraseSi B) hcov hsub hs hex
  have hOuter : ImageComparerHamming.Compare t (eraseSi B) (eraseSi A) = .Outer :=
    compare_superset_outer t (eraseSi A) (eraseSi B) hcov hsub hs hex
  have hA1 : UniqueFileStorage.Add t { hashDir := d } h A
      = (some (eraseSi A), { hashDir := d, old := [], pend := [(h, eraseSi A, [])], dup := [] }) := by
    rw [UniqueFileStorage.Add, addWith_fresh _ _ _ _ _ hd rfl rfl]
  have hB1 : UniqueFileStorage.Add t { hashDir := d } h B
      = (some (eraseSi B), { hashDir := d, old := [], pend := [(h, eraseSi B, [])], dup := [] }) := by
    rw [UniqueFileStorage.Add, addWith_fresh _ _ _ _ _ hd rfl rfl]
  have hnlAB : newLoop (ImageComparerHamming.Compare t) UniqueFileConflictResolver.Resolve
      h (eraseSi B) [(h, eraseSi A, [])]
      = some (some (eraseSi B), [(h, eraseSi B, [(eraseSi A).ClearImages])]) := by
    simp [newLoop, hInner]
  have hnlBA : newLoop (ImageComparerHamming.Compare t) UniqueFileConflictResolver.Resolve
      h (eraseSi A) [(h, eraseSi B, [])]
      = some (none, [(h, eraseSi B, [(eraseSi A).ClearImages])]) := by
    simp [newLoop, hOuter]
  have hAB2 : UniqueFileStorage.Add t
      { hashDir := d, old := [], pend := [(h, eraseSi A, [])], dup := [] } h B
      = (some (eraseSi B),
        { hashDir := d, old := [], pend := [(h, eraseSi B, [(eraseSi A).ClearImages])], dup := [] }) := by
    rw [UniqueFileStorage.Add, addWith_no_old _ _ _ _ _ hd rfl, hnlAB]
  have hBA2 : UniqueFileStorage.Add t
      { hashDir := d, old := [], pend := [(h, eraseSi B, [])], dup := [] } h A
      = (none,
        { hashDir := d, old := [], pend := [(h, eraseSi B, [(eraseSi A).ClearImages])], dup := [] }) := by
    rw [UniqueFileStorage.Add, addWith_no_old _ _ _ _ _ hd rfl, hnlBA]
  refine ⟨?_, ?_, ?_, ?_⟩ <;> simp [hA1, hB1, hAB2, hBA2]

theorem c6_witness :
    (UniqueFileStorage.Add defaultHammingThreshold
        (UniqueFileStorage.Add defaultHammingThreshold { hashDir := "d" } "h" wInner).2
        "h" wOuter).2
      = (UniqueFileStorage.Add defaultHammingThreshold
        (UniqueFileStorage.Add defaultHammingThreshold { hashDir := "d" } "h" wOuter).2
        "h" wInner).2
    ∧ (UniqueFileStorage.Add defaultHammingThreshold
        (UniqueFileStorage.Add defaultHammingThreshold { hashDir := "d" } "h" wInner).2
        "h" wOuter).2.pend
      = [("h", eraseSi wOuter, [(eraseSi wInner).ClearImages])]
    ∧ (UniqueFileStorage.Add defaultHammingThreshold
        (UniqueFileStorage.Add defaultHammingThreshold { hashDir := "d" } "h" wInner).2
        "h" wOuter).1 = some (eraseSi wOuter)
    ∧ (UniqueFileStorage.Add defaultHammingThreshold
        (UniqueFileStorage.Add defaultHammingThreshold { hashDir := "d" } "h" wOuter).2
        "h" wInner).1 = none :=
  c6_amended defaultHammingThreshold "d" "h" wInner wOuter (by decide) (by decide)
    (List.Sublist.cons _ (List.Sublist.refl _)) (by decide) rfl

/-- C7.  The claim states that title normalization extracts embedded
digit runs as separate pseudo-tokens, so that Book 2 and Book2 share the
token 2.  The code does compute those pseudo-tokens inside SimplifyTitle,
but into a local list that is discarded: the returned title for Book2 is
book2, its token set is the singleton book2, which contains neither book
nor 2, and the two token sets are disjoint.  The third conjunct exhibits
the discarded local, which does hold the claimed tokens. -/
theorem c7_digit_tokens_discarded :
    titleTokens (codes "Book 2") = [codes "book", codes "2"]
    ∧ titleTokens (codes "Book2") = [codes "book2"]
    ∧ simplifyTitleSplitResult (PrepareTitle (codes "Book2")) = [codes "book", codes "2"]
    ∧ (∀ w ∈ titleTokens (codes "Book 2"), w ∉ titleTokens (codes "Book2")) := by
  decide

theorem savePend_spec (l : List (String × UniqueFile × List UniqueFile)) :
    savePend l =
      (l.map fun b => (b.1, savedCanonical b.2.1),
       l.map fun b => (b.2.1.ClearImages, ({} : UniqueFile)),
       l.flatMap fun b => b.2.2.map fun dp => (dp, savedCanonical b.2.1)) := by
  induction l with
  | nil => rfl
  | cons b rest ih => simp [savePend, ih]

/-- C9.  Save is a no-op when pending and rejected are both empty; in
every state (with a destination directory) it empties pending and
rejected, appends every canonical entry of pending to persisted with its
transient image bytes stripped (and its serialized text cleared), and
emits first one record per canonical entry (with an empty origin) and
then one record per rejected duplicate carrying its canonical origin
entry — whose uid is the canonical uid. -/
theorem c9_save (st : UniqueFileStorage) (hd : st.hashDir ≠ "") :
    (st.pend = [] → st.dup = [] → UniqueFileStorage.Save st = (st, []))
    ∧ (UniqueFileStorage.Save st).1.pend = []
    ∧ (UniqueFileStorage.Save st).1.dup = []
    ∧ (UniqueFileStorage.Save st).1.old
        = st.old ++ st.pend.map (fun b => (b.1, savedCanonical b.2.1))
    ∧ (UniqueFileStorage.Save st).2
        = st.pend.map (fun b => (b.2.1.ClearImages, ({} : UniqueFile)))
          ++ st.dup
          ++ st.pend.flatMap (fun b => b.2.2.map fun dp => (dp, savedCanonical b.2.1)) := by
  by_cases hpd : st.pend = [] ∧ st.dup = []
  · have hsv : UniqueFileStorage.Save st = (st, []) := by
      rw [UniqueFileStorage.Save, if_pos hpd]
    refine ⟨fun _ _ => hsv, ?_, ?_, ?_, ?_⟩ <;> simp [hsv, hpd.1, hpd.2]
  · have hsv : UniqueFileStorage.Save st =
        (⟨st.hashDir, st.old ++ st.pend.map (fun b => (b.1, savedCanonical b.2.1)), [], []⟩,
         st.pend.map (fun b => (b.2.1.ClearImages, ({} : UniqueFile)))
           ++ st.dup
           ++ st.pend.flatMap (fun b => b.2.2.map fun dp => (dp, savedCanonical b.2.1))) := by
      rw [UniqueFileStorage.Save, if_neg hpd, if_neg hd]
      simp [savePend_spec, List.append_assoc]
    refine ⟨fun h1 h2 => absurd ⟨h1, h2⟩ hpd, ?_, ?_, ?_, ?_⟩ <;> simp [hsv]

theorem c9_witness :
    saveStorage.hashDir ≠ ""
    ∧ (UniqueFileStorage.Save saveStorage).1.pend = []
    ∧ (UniqueFileStorage.Save saveStorage).1.dup = []
    ∧ (UniqueFileStorage.Save saveStorage).1.old
        = saveStorage.old ++ saveStorage.pend.map (fun b => (b.1, savedCanonical b.2.1)) :=
  ⟨by decide, (c9_save saveStorage (by decide)).2.1, (c9_save saveStorage (by decide)).2.2.1,
    (c9_save saveStorage (by decide)).2.2.2.1⟩

/-- C10.  With an empty destination directory, Add inserts the candidate
(after the title-token erasure that precedes the directory check) as a
fresh canonical entry with an empty duplicate list at the end of pending,
returns it (never None), and leaves every other component of the state
unchanged; the result does not depend on the comparer or the resolver,
which are therefore never consulted, and no duplicate or rejection is
recorded. -/
theorem c10_add_without_dedup (cmp : UniqueFile → UniqueFile → ImagesCompareResult)
    (res : UniqueFile → UniqueFile → Bool) (st : UniqueFileStorage) (h : String)
    (f : UniqueFile) (hd : st.hashDir = "") :
    UniqueFileStorage.AddWith cmp res st h f =
      (some (eraseSi f), { st with pend := st.pend ++ [(h, eraseSi f, [])] }) := by
  simp [UniqueFileStorage.AddWith, hd]

theorem c10_witness :
    (UniqueFileStorage.AddWith (ImageComparerHamming.Compare defaultHammingThreshold)
        UniqueFileConflictResolver.Resolve { hashDir := "" } "h" plainEntry).1
      = some (eraseSi plainEntry) := by
  rw [c10_add_without_dedup (ImageComparerHamming.Compare defaultHammingThreshold)
    UniqueFileConflictResolver.Resolve { hashDir := "" } "h" plainEntry rfl]
